import Mathlib

/-!
# SkyNet voice-assistant: shallow embedding and verification

This file embeds the core of the SkyNet voice assistant (a Python
program) in Lean 4 and proves properties of the embedding.

The embedded components are:

* the Action Protocol (`OllamaClient.parse_response_with_actions` in
  `src/ai/ollama_client.py`), including faithful models of the two
  regular expressions it uses and of Python's `json.loads`;
* the safe-mode command gate (`SystemController.execute_smart_command`
  in `src/system/system_controller.py`);
* the voice-activity segmenter (`SpeechToText._record_audio` in
  `src/speech/speech_to_text.py`);
* the turn orchestrator (`SkynetAssistant.process_input`,
  `check_system_command` and `speak` in `src/core/assistant.py`),
  modelled as an event-trace generator over abstracted collaborators;
* the speaking-phase ticker (`SkynetAssistant.speak` together with
  `_animate_particles_while_speaking`), modelled as two cooperative
  tasks driven by an arbitrary scheduling oracle, matching asyncio's
  cooperative (single event loop, run-to-suspension-point) semantics.

Python strings are modelled as `List Char`; machine floats appear only
as configuration constants, which are evaluated exactly (the values of
the relevant IEEE-754 double expressions are recorded at the constant
definitions).
-/

namespace SkyNet

/-! ## Python string primitives -/

/-- Unicode code points accepted by Python's `str.isspace`, by
`str.strip()` with no argument, and by `\s` in an `re` pattern over a
`str`.  The ASCII part is what every input in this development
exercises; the astral entries are listed for completeness. -/
def pyIsSpace (c : Char) : Bool :=
  [0x09, 0x0a, 0x0b, 0x0c, 0x0d, 0x1c, 0x1d, 0x1e, 0x1f, 0x20,
   0x85, 0xa0, 0x1680,
   0x2000, 0x2001, 0x2002, 0x2003, 0x2004, 0x2005, 0x2006, 0x2007,
   0x2008, 0x2009, 0x200a, 0x2028, 0x2029, 0x202f, 0x205f,
   0x3000].contains c.toNat

/-- Python `str.strip()`: drop leading and trailing whitespace. -/
def pyStrip (s : List Char) : List Char :=
  ((s.dropWhile pyIsSpace).reverse.dropWhile pyIsSpace).reverse

/-- Python `str.lower()`, modelled character-wise (the characters the
program's patterns compare are ASCII, where this is exact). -/
def pyLower (s : List Char) : List Char :=
  s.map Char.toLower

/-- Python's `in` operator on strings: `containsSub s p` holds when
`p` occurs as a contiguous substring of `s`. -/
def containsSub (s p : List Char) : Bool :=
  match s with
  | [] => p.isEmpty
  | _ :: t => p.isPrefixOf s || containsSub t p

/-! ## The Action Protocol's regular expressions

`parse_response_with_actions` uses two patterns (with `re.DOTALL`):

* fenced: ```` ```json\s*\n?({.+?})\s*\n?``` ````
* bare: `\{\s*"actions"\s*:\s*\[.+?\]\s*\}`

In both patterns every `\s*\n?` (resp. `\s*`) run is immediately
followed by a non-whitespace literal, so a backtracking match exists
iff skipping the *maximal* whitespace run lands on that literal; the
lazy `.+?` groups are resolved by scanning for the earliest closing
position whose suffix matches.  `re.search` finds the match with the
leftmost starting position; `re.sub` replaces every non-overlapping
match, resuming the scan after each match's end. -/

/-- Skip a maximal run of regex-`\s` characters. -/
def dropWs (s : List Char) : List Char :=
  s.dropWhile pyIsSpace

/-- The literal `` ```json `` opening the fenced pattern. -/
def fencedOpen : List Char := '`' :: '`' :: '`' :: 'j' :: 's' :: 'o' :: 'n' :: []

/-- The literal `` ``` `` closing the fenced pattern. -/
def fencedClose : List Char := '`' :: '`' :: '`' :: []

/-- Lazy scan for the fenced group's closing `}`: `acc` holds the
(reversed) group text consumed so far, starting from `['{']`.  At each
candidate `}` the group must already contain at least two characters
(`{` plus the nonempty `.+?`), and the remainder must match
`` \s*\n?``` ``; otherwise the candidate is absorbed into the group
and the scan continues (exactly the backtracking order of the lazy
quantifier).  Returns the group (including both braces) and the
remainder after the closing `` ``` ``. -/
def lazyCloseFenced : List Char → List Char → Option (List Char × List Char)
  | _, [] => none
  | acc, c :: rest =>
    if c == '}' && 2 ≤ acc.length && fencedClose.isPrefixOf (dropWs rest) then
      some ((c :: acc).reverse, (dropWs rest).drop 3)
    else
      lazyCloseFenced (c :: acc) rest

/-- Attempt to match the fenced pattern at the start of `s`.  Returns
`(group, tail)` where `group` is capture group 1 and `tail` the
remainder of the string after the whole match. -/
def fencedMatchAt (s : List Char) : Option (List Char × List Char) :=
  if fencedOpen.isPrefixOf s then
    match dropWs (s.drop 7) with
    | '{' :: r1 => lazyCloseFenced ['{'] r1
    | _ => none
  else none

/-- Result of a successful `re.search`: the text before the match, the
capture group, and the text after the match. -/
structure FMatch where
  pre : List Char
  group : List Char
  tail : List Char
deriving DecidableEq, Repr

/-- `re.search` for the fenced pattern: try every starting position
from the left, returning the first full match. -/
def fencedSearch : List Char → Option FMatch
  | [] => none
  | c :: t =>
    match fencedMatchAt (c :: t) with
    | some (g, tail) => some ⟨[], g, tail⟩
    | none => (fencedSearch t).map fun m => ⟨c :: m.pre, m.group, m.tail⟩

/-- One pass of `re.sub(fenced, '', s)` with explicit fuel (the fuel
is always at least the string length, and each replacement removes at
least one character, so the fuel never runs out on the call below). -/
def fencedSubGo : Nat → List Char → List Char
  | 0, s => s
  | fuel + 1, s =>
    match fencedSearch s with
    | none => s
    | some m => m.pre ++ fencedSubGo fuel m.tail

/-- `re.sub(json_pattern, '', s, flags=re.DOTALL)`: remove every
non-overlapping fenced match, scanning left to right. -/
def fencedSub (s : List Char) : List Char :=
  fencedSubGo s.length s

/-- The literal `"actions"` (with quotes) required by the bare
pattern. -/
def actionsLit : List Char :=
  '"' :: 'a' :: 'c' :: 't' :: 'i' :: 'o' :: 'n' :: 's' :: '"' :: []

/-- Lazy scan for the bare pattern's closing `]`: at each candidate
`]` the bracket content consumed so far (`n` characters) must be
nonempty and the remainder must match `\s*\}`; otherwise the
candidate is absorbed and the scan continues.  Returns the remainder
after the closing `}`. -/
def lazyCloseBare : Nat → List Char → Option (List Char)
  | _, [] => none
  | n, c :: rest =>
    if c == ']' && 1 ≤ n then
      match dropWs rest with
      | '}' :: tail => some tail
      | _ => lazyCloseBare (n + 1) rest
    else
      lazyCloseBare (n + 1) rest

/-- The bare pattern after its opening `{` has been consumed:
`\s*"actions"\s*:\s*\[.+?\]\s*\}` matched against `r0`. -/
def bareMatchAfterBrace (r0 : List Char) : Option (List Char) :=
  if actionsLit.isPrefixOf (dropWs r0) then
    match dropWs ((dropWs r0).drop 9) with
    | ':' :: r3 =>
      match dropWs r3 with
      | '[' :: r5 => lazyCloseBare 0 r5
      | _ => none
    | _ => none
  else none

/-- Attempt to match the bare pattern at the start of `s`, returning
the remainder of the string after the whole match. -/
def bareMatchAt (s : List Char) : Option (List Char) :=
  match s with
  | [] => none
  | c :: r0 => if c == '{' then bareMatchAfterBrace r0 else none

/-- Result of a successful bare-pattern `re.search`: text before the
match, the matched text itself (group 0, fed to `json.loads`), and
the text after. -/
structure BMatch where
  pre : List Char
  matched : List Char
  tail : List Char
deriving DecidableEq, Repr

/-- `re.search` for the bare pattern. -/
def bareSearch : List Char → Option BMatch
  | [] => none
  | c :: t =>
    match bareMatchAt (c :: t) with
    | some tail => some ⟨[], (c :: t).take ((c :: t).length - tail.length), tail⟩
    | none => (bareSearch t).map fun m => ⟨c :: m.pre, m.matched, m.tail⟩

/-- `re.sub` for the bare pattern, with fuel (see `fencedSubGo`). -/
def bareSubGo : Nat → List Char → List Char
  | 0, s => s
  | fuel + 1, s =>
    match bareSearch s with
    | none => s
    | some m => m.pre ++ bareSubGo fuel m.tail

/-- `re.sub(simple_json_pattern, '', s, flags=re.DOTALL)`. -/
def bareSub (s : List Char) : List Char :=
  bareSubGo s.length s

/-! ## A model of Python's `json.loads`

Faithful to `json/decoder.py` with default arguments: whitespace
between tokens is exactly `' '`, `'\t'`, `'\n'`, `'\r'`; object keys
are strings (later duplicates overwrite earlier ones); strings are
double-quoted with the eight standard escapes plus `\uXXXX` (with
surrogate-pair joining, lone surrogates kept); unescaped control
characters below `0x20` are rejected (strict mode); numbers follow
the JSON grammar, with `NaN`, `Infinity` and `-Infinity` also
accepted; the whole input must be consumed apart from surrounding
whitespace.  Decoded strings are represented as lists of code points
(`List Nat`) so that lone surrogates are representable; numbers keep
their lexeme, since the program never computes with them. -/

/-- JSON values as produced by `json.loads`. -/
inductive Json where
  | null : Json
  | bool (b : Bool) : Json
  | num (lex : List Char) : Json
  | str (cs : List Nat) : Json
  | arr (elems : List Json) : Json
  | obj (pairs : List (List Nat × Json)) : Json

/-- The four whitespace characters skipped between JSON tokens. -/
def dropJsonWs (s : List Char) : List Char :=
  s.dropWhile fun c => c == ' ' || c == '\t' || c == '\n' || c == '\x0d'

/-- Hex digit value. -/
def hexDigit (c : Char) : Option Nat :=
  let n := c.toNat
  if 48 ≤ n && n < 58 then some (n - 48)
  else if 97 ≤ n && n < 103 then some (n - 87)
  else if 65 ≤ n && n < 71 then some (n - 55)
  else none

/-- Value of a `\uXXXX` escape. -/
def hex4 (a b c d : Char) : Option Nat :=
  match hexDigit a, hexDigit b, hexDigit c, hexDigit d with
  | some x, some y, some z, some w => some (x * 4096 + y * 256 + z * 16 + w)
  | _, _, _, _ => none

/-- Code point for a single-character escape. -/
def escCode (e : Char) : Option Nat :=
  if e == '"' then some 34
  else if e == '\\' then some 92
  else if e == '/' then some 47
  else if e == 'b' then some 8
  else if e == 'f' then some 12
  else if e == 'n' then some 10
  else if e == 'r' then some 13
  else if e == 't' then some 9
  else none

/-- Prepend a decoded code point to a string-scan result. -/
def strCons (n : Nat) (o : Option (List Nat × List Char)) :
    Option (List Nat × List Char) :=
  o.map fun r => (n :: r.1, r.2)

/-- Scan a JSON string body (the opening quote already consumed),
following `json.decoder.py_scanstring` in strict mode.  The fuel is
at least the input length; every step consumes at least one
character. -/
def parseStrGo : Nat → List Char → Option (List Nat × List Char)
  | 0, _ => none
  | _ + 1, [] => none
  | fuel + 1, c :: rest =>
    if c == '"' then some ([], rest)
    else if c == '\\' then
      match rest with
      | [] => none
      | e :: r2 =>
        if e == 'u' then
          match r2 with
          | a :: b :: c1 :: d :: r3 =>
            match hex4 a b c1 d with
            | none => none
            | some n =>
              if 0xd800 ≤ n && n ≤ 0xdbff then
                match r3 with
                | '\\' :: 'u' :: a2 :: b2 :: c2 :: d2 :: r4 =>
                  match hex4 a2 b2 c2 d2 with
                  | some n2 =>
                    if 0xdc00 ≤ n2 && n2 ≤ 0xdfff then
                      strCons (0x10000 + (n - 0xd800) * 0x400 + (n2 - 0xdc00))
                        (parseStrGo fuel r4)
                    else strCons n (parseStrGo fuel r3)
                  | none => strCons n (parseStrGo fuel r3)
                | _ => strCons n (parseStrGo fuel r3)
              else strCons n (parseStrGo fuel r3)
          | _ => none
        else
          match escCode e with
          | some n => strCons n (parseStrGo fuel r2)
          | none => none
    else if c.toNat < 0x20 then none
    else strCons c.toNat (parseStrGo fuel rest)

/-- Scan a JSON string body with sufficient fuel. -/
def parseStr (s : List Char) : Option (List Nat × List Char) :=
  parseStrGo (s.length + 1) s

/-- The digit run at the head of `s`, as `(digits, rest)`. -/
def digitRun (s : List Char) : List Char × List Char :=
  (s.takeWhile Char.isDigit, s.dropWhile Char.isDigit)

/-- Optional fraction part `(\.\d+)?`: a dot is consumed only when at
least one digit follows (otherwise the group does not participate in
the match, exactly as in `json.scanner.NUMBER_RE`). -/
def numFrac (lex s : List Char) : List Char × List Char :=
  match s with
  | '.' :: r =>
    match digitRun r with
    | ([], _) => (lex, s)
    | (ds, rest) => (lex ++ '.' :: ds, rest)
  | _ => (lex, s)

/-- Optional exponent part `([eE][-+]?\d+)?`, consumed only when
complete. -/
def numExp (lex s : List Char) : List Char × List Char :=
  match s with
  | e :: r =>
    if e == 'e' || e == 'E' then
      match r with
      | sgn :: r2 =>
        if sgn == '+' || sgn == '-' then
          match digitRun r2 with
          | ([], _) => (lex, s)
          | (ds, rest) => (lex ++ e :: sgn :: ds, rest)
        else
          match digitRun r with
          | ([], _) => (lex, s)
          | (ds, rest) => (lex ++ e :: ds, rest)
      | [] => (lex, s)
    else (lex, s)
  | [] => (lex, s)

/-- Integer part `(-?(?:0|[1-9]\d*))` (the sign already split off by
the caller): returns the digits consumed. -/
def numInt (s : List Char) : Option (List Char × List Char) :=
  match s with
  | '0' :: r => some (['0'], r)
  | c :: r =>
    if c.isDigit then
      match digitRun r with
      | (ds, rest) => some (c :: ds, rest)
    else none
  | [] => none

/-- Scan a number (or `-Infinity`) at the head of `s`, following
`json.scanner.py_make_scanner`. -/
def parseNum (s : List Char) : Option (Json × List Char) :=
  if ('-' :: 'I' :: 'n' :: 'f' :: 'i' :: 'n' :: 'i' :: 't' :: 'y' :: []).isPrefixOf s then
    some (.num ('-' :: 'I' :: 'n' :: 'f' :: 'i' :: 'n' :: 'i' :: 't' :: 'y' :: []), s.drop 9)
  else
    match s with
    | '-' :: r =>
      match numInt r with
      | none => none
      | some (ds, rest) =>
        match numFrac ('-' :: ds) rest with
        | (lex2, rest2) =>
          match numExp lex2 rest2 with
          | (lex3, rest3) => some (.num lex3, rest3)
    | _ =>
      match numInt s with
      | none => none
      | some (ds, rest) =>
        match numFrac ds rest with
        | (lex2, rest2) =>
          match numExp lex2 rest2 with
          | (lex3, rest3) => some (.num lex3, rest3)

mutual

/-- Scan one JSON value at the head of `s` (no leading whitespace).
Every mutual call decreases the fuel; the top-level entry point
supplies `3 * length + 8`, which dominates the worst case (three
calls per consumed character, reached by nested arrays). -/
def parseVal : Nat → List Char → Option (Json × List Char)
  | 0, _ => none
  | _ + 1, [] => none
  | fuel + 1, c :: rest =>
    if c == '{' then
      match dropJsonWs rest with
      | '}' :: r => some (.obj [], r)
      | r => parseMembers fuel r []
    else if c == '[' then
      match dropJsonWs rest with
      | ']' :: r => some (.arr [], r)
      | r => parseElems fuel r []
    else if c == '"' then
      (parseStr rest).map fun r => (.str r.1, r.2)
    else if c == 't' then
      if ('r' :: 'u' :: 'e' :: []).isPrefixOf rest then
        some (.bool true, rest.drop 3)
      else none
    else if c == 'f' then
      if ('a' :: 'l' :: 's' :: 'e' :: []).isPrefixOf rest then
        some (.bool false, rest.drop 4)
      else none
    else if c == 'n' then
      if ('u' :: 'l' :: 'l' :: []).isPrefixOf rest then
        some (.null, rest.drop 3)
      else none
    else if c == 'N' then
      if ('a' :: 'N' :: []).isPrefixOf rest then
        some (.num ('N' :: 'a' :: 'N' :: []), rest.drop 2)
      else none
    else if c == 'I' then
      if ('n' :: 'f' :: 'i' :: 'n' :: 'i' :: 't' :: 'y' :: []).isPrefixOf rest then
        some (.num ('I' :: 'n' :: 'f' :: 'i' :: 'n' :: 'i' :: 't' :: 'y' :: []), rest.drop 7)
      else none
    else parseNum (c :: rest)

/-- Scan the members of a JSON object, positioned at a key (after
`{` and any whitespace, with at least one member required). -/
def parseMembers : Nat → List Char → List (List Nat × Json) →
    Option (Json × List Char)
  | 0, _, _ => none
  | _ + 1, [], _ => none
  | fuel + 1, c :: rest, acc =>
    if c == '"' then
      match parseStr rest with
      | none => none
      | some (k, r1) =>
        match dropJsonWs r1 with
        | ':' :: r3 =>
          match parseVal fuel (dropJsonWs r3) with
          | none => none
          | some (v, r4) =>
            match dropJsonWs r4 with
            | ',' :: r6 => parseMembers fuel (dropJsonWs r6) (acc ++ [(k, v)])
            | '}' :: r6 => some (.obj (acc ++ [(k, v)]), r6)
            | _ => none
        | _ => none
    else none

/-- Scan the elements of a JSON array (after `[` and any whitespace,
with at least one element required). -/
def parseElems : Nat → List Char → List Json → Option (Json × List Char)
  | 0, _, _ => none
  | fuel + 1, s, acc =>
    match parseVal fuel s with
    | none => none
    | some (v, r) =>
      match dropJsonWs r with
      | ',' :: r2 => parseElems fuel (dropJsonWs r2) (acc ++ [v])
      | ']' :: r2 => some (.arr (acc ++ [v]), r2)
      | _ => none

end

/-- `json.loads`: skip surrounding whitespace, scan one value,
require full consumption.  Any Python-side `JSONDecodeError` is
`none`. -/
def jsonLoads (s : List Char) : Option Json :=
  match parseVal (3 * s.length + 8) (dropJsonWs s) with
  | none => none
  | some (v, rest) => if dropJsonWs rest = [] then some v else none

/-- Lookup in a decoded object: Python dicts keep the last value
bound to a duplicated key. -/
def jsonGet (pairs : List (List Nat × Json)) (k : List Nat) : Option Json :=
  (pairs.reverse.find? fun p => p.1 == k).map Prod.snd

/-- The code points of the key `actions`. -/
def actionsKey : List Nat := [97, 99, 116, 105, 111, 110, 115]

/-- Whether a number lexeme denotes a nonzero (truthy) value:
`NaN`/`Infinity` are truthy; otherwise the value is zero exactly when
every mantissa digit is `0`. -/
def numNonzero (lex : List Char) : Bool :=
  if lex.contains 'I' || lex.contains 'N' then true
  else
    ((if lex.head? == some '-' then lex.tail else lex).takeWhile
      fun c => !(c == 'e' || c == 'E')).any fun c => c.isDigit && c != '0'

/-- Python truthiness of a decoded JSON value (`if not result['actions']`). -/
def pyTruthy : Json → Bool
  | .null => false
  | .bool b => b
  | .num lex => numNonzero lex
  | .str cs => !cs.isEmpty
  | .arr xs => !xs.isEmpty
  | .obj ps => !ps.isEmpty

/-! ## The Action Protocol: `OllamaClient.parse_response_with_actions` -/

/-- The result dict: `message` (text shown/spoken to the user) and
`actions` (the Python value stored under `'actions'`, initially the
empty list). -/
structure ParsedReply where
  message : List Char
  actions : Json

/-- The value the fenced (or fallback) branch stores into
`result['actions']` after a successful `json.loads`: the decoded
dict's `actions` entry if present, else the empty list (`'actions'
in action_data` / `action_data.get('actions', [])`; both branches
behave identically because a parsed `{...}` document is always a
dict). -/
def actionsOf (v : Json) : Json :=
  match v with
  | .obj kvs =>
    match jsonGet kvs actionsKey with
    | some a => a
    | none => .arr []
  | _ => .arr []

/-- `OllamaClient.parse_response_with_actions` (ollama_client.py:281).
First the fenced pattern is searched; on a successful `json.loads` of
group 1 the actions are extracted and the message becomes the input
with every fenced match removed, stripped (a `JSONDecodeError` leaves
the result unchanged — no exception escapes).  If the resulting
actions are falsy, the bare pattern is tried on the *original* input
the same way (any failure is swallowed by the bare `except`). -/
def parse_response_with_actions (response : List Char) : ParsedReply :=
  let r1 : ParsedReply :=
    match fencedSearch response with
    | none => ⟨response, .arr []⟩
    | some fm =>
      match jsonLoads fm.group with
      | none => ⟨response, .arr []⟩
      | some v => ⟨pyStrip (fencedSub response), actionsOf v⟩
  if pyTruthy r1.actions then r1
  else
    match bareSearch response with
    | none => r1
    | some bm =>
      match jsonLoads bm.matched with
      | none => r1
      | some v => ⟨pyStrip (bareSub response), actionsOf v⟩

/-! ## The safe-mode command gate:
`SystemController.execute_smart_command` (system_controller.py:335)

The embedding stops at the effect boundary: reaching the
`subprocess.run` call is represented by the `dispatched` constructor,
rejection by `rejected` carrying the exact message built by the
Python f-string. -/

/-- The denylist, in source order (`dangerous_commands`). -/
def dangerousCommands : List (List Char) :=
  ["del ", "rm ", "rmdir", "format", "shutdown", "restart",
   "reg delete", "rd /s", "deltree", ":()\x7b", "fork bomb"].map String.toList

/-- The rejection message
`f"⚠️ Comando bloqueado por segurança: contém '{dangerous}'. Use safe_mode=False para forçar."`. -/
def blockMsg (d : List Char) : List Char :=
  "⚠️ Comando bloqueado por segurança: contém \x27".toList ++ d ++
    "\x27. Use safe_mode=False para forçar.".toList

/-- Outcome of `execute_smart_command` up to the effect boundary. -/
inductive SmartCmdResult where
  | rejected (msg : List Char) : SmartCmdResult
  | dispatched (command : List Char) : SmartCmdResult
deriving DecidableEq

/-- `execute_smart_command(command, safe_mode)`: in safe mode the
lowercased command is checked against the denylist in order and the
first hit is rejected; otherwise the command reaches the OS executor. -/
def execute_smart_command (command : List Char) (safeMode : Bool) : SmartCmdResult :=
  let commandLower := pyLower command
  if safeMode then
    match dangerousCommands.find? fun d => containsSub commandLower d with
    | some d => .rejected (blockMsg d)
    | none => .dispatched command
  else .dispatched command

/-! ## The voice-activity segmenter:
`SpeechToText._record_audio` (speech_to_text.py:150)

Audio frames are modelled as lists of rational sample amplitudes; one
frame corresponds to one recorded chunk (0.3 s).  The configuration
constants are the exact values Python computes (with IEEE-754 double
arithmetic, whose results are exact here):
`int(1.2/0.3) = 4`, `int(0.5/0.3) = int(1.666..) = 1`,
`int(10.0/0.3) = int(33.333..) = 33`. -/

/-- `silence_threshold = 0.008`. -/
def silenceThreshold : ℚ := 8 / 1000

/-- `max_silence_chunks = int(self.silence_duration / self.chunk_duration)`. -/
def maxSilenceChunks : Nat := 4

/-- `min_speech_chunks = int(self.min_speech_duration / self.chunk_duration)`. -/
def minSpeechChunks : Nat := 1

/-- `max_waiting = int(10.0 / self.chunk_duration)`. -/
def maxWaiting : Nat := 33

/-- `np.abs(chunk).mean()` (the mean of an empty frame is modelled as
`0`; NumPy yields NaN there, and both fail the `> threshold` test). -/
def volume (f : List ℚ) : ℚ :=
  (f.map abs).sum / f.length

/-- Callback invocations observable from `_record_audio`. -/
inductive SegEv where
  | volumeEv (v : ℚ) : SegEv
  | speechStart : SegEv
  | speechEnd : SegEv
deriving DecidableEq

/-- Loop state of `_record_audio`. -/
structure SegState where
  chunks : List (List ℚ)
  silenceCount : Nat
  speechDetected : Bool
  waitingCount : Nat
  events : List SegEv
deriving DecidableEq

/-- Result of the recording loop on a given frame sequence. -/
inductive SegOut where
  | timeout (events : List SegEv) : SegOut
  | utter (audio : List ℚ) (events : List SegEv) : SegOut
  | noMoreFrames (st : SegState) : SegOut
deriving DecidableEq

/-- Initial loop state. -/
def segInit : SegState := ⟨[], 0, false, 0, []⟩

/-- One iteration of the `while True` loop body of `_record_audio`,
on one recorded frame.  `Sum.inl` continues the loop, `Sum.inr`
returns (`timeout` for the `return None` branch, `utter` for the
`break` followed by `np.concatenate`). -/
def segStep (st : SegState) (f : List ℚ) : SegState ⊕ SegOut :=
  let v := volume f
  let evs := st.events ++ [SegEv.volumeEv v]
  if silenceThreshold < v then
    let evs := if st.speechDetected then evs else evs ++ [SegEv.speechStart]
    Sum.inl ⟨st.chunks ++ [f], 0, true, 0, evs⟩
  else if st.speechDetected then
    let chunks := st.chunks ++ [f]
    let sil := st.silenceCount + 1
    if maxSilenceChunks ≤ sil then
      if minSpeechChunks ≤ chunks.length then
        Sum.inr (SegOut.utter chunks.flatten (evs ++ [SegEv.speechEnd]))
      else
        Sum.inl ⟨[], 0, false, st.waitingCount, evs⟩
    else
      Sum.inl ⟨chunks, sil, true, st.waitingCount, evs⟩
  else
    let w := st.waitingCount + 1
    if maxWaiting ≤ w then Sum.inr (SegOut.timeout evs)
    else Sum.inl ⟨st.chunks, st.silenceCount, false, w, evs⟩

/-- Run the loop over a finite frame sequence. -/
def segRun (st : SegState) : List (List ℚ) → SegOut
  | [] => SegOut.noMoreFrames st
  | f :: fs =>
    match segStep st f with
    | Sum.inl st2 => segRun st2 fs
    | Sum.inr out => out

/-! ## The turn orchestrator: `SkynetAssistant.process_input`
(assistant.py:124), with `check_system_command` (assistant.py:171)
and `speak` (assistant.py:196)

The orchestrator is modelled as a generator of the event trace of one
turn.  `Ev.state` records the `update_state` transitions (assignments
of `current_state`); the particle ticker's extra observer callbacks do
not change `current_state` and are modelled separately below.
Fallible collaborators are abstracted as parameters:

* `handlerRes k` — outcome of the system-command handler for matched
  keyword `k` (`check_system_command` converts a raised exception
  into an `"Erro ao executar comando: …"` string itself);
* `mem1`/`mem2` — `some e` when the corresponding
  `memory.add_message` call raises `e` (the in-RAM append has already
  happened when the database write fails, so the `memAdd` event is
  still recorded);
* `aiRes` — outcome of `ai.generate_response` (per its own source it
  catches exceptions and falls back to a mock reply, but the
  orchestrator does not rely on that);
* `tts.speak` catches every `Exception` internally
  (text_to_speech.py:62), so the synthesis call never raises into
  `speak`, and each call of `speak` emits exactly one `speaking`
  state. -/

/-- Events observable from one turn of `process_input`. -/
inductive Ev where
  | state (s : List Char) : Ev
  | message (text : List Char) (kind : List Char) : Ev
  | memAdd (role : List Char) (content : List Char) : Ev
  | ttsSpeak (text : List Char) : Ev
deriving DecidableEq

/-- The trace of `SkynetAssistant.speak`: emit the `speaking` state,
then synthesize (the ticker lifecycle is modelled separately). -/
def speakEvs (t : List Char) : List Ev :=
  [Ev.state "speaking".toList, Ev.ttsSpeak t]

/-- `f"Desculpe, ocorreu um erro: {str(e)}"`. -/
def errorReply (e : List Char) : List Char :=
  "Desculpe, ocorreu um erro: ".toList ++ e

/-- The command keyword table of `check_system_command`, in source
(insertion) order. -/
def commandKeywords : List (List Char) :=
  ["abrir", "fechar", "executar comando", "pesquisar", "volume",
   "screenshot", "digitar"].map String.toList

/-- `check_system_command`: the first keyword contained in the
lowercased text selects a handler; a handler exception is converted
into an error string, so this function never raises. -/
def checkSystemCommand (text : List Char)
    (handlerRes : List Char → Except (List Char) (List Char)) :
    Option (List Char) :=
  match commandKeywords.find? fun k => containsSub (pyLower text) k with
  | none => none
  | some k =>
    match handlerRes k with
    | .ok r => some r
    | .error e => some ("Erro ao executar comando: ".toList ++ e)

/-- The body of `process_input`'s `try` block, as the pair of the
events it emitted and the exception (if any) that aborted it. -/
def processInputBody (text : List Char)
    (handlerRes : List Char → Except (List Char) (List Char))
    (mem1 mem2 : Option (List Char))
    (aiRes : Except (List Char) (List Char)) :
    List Ev × Option (List Char) :=
  match mem1 with
  | some e => ([Ev.memAdd "user".toList text], some e)
  | none =>
    let response : Except (List Char) (List Char) :=
      match checkSystemCommand text handlerRes with
      | some r => if r = [] then aiRes else .ok r
      | none => aiRes
    match response with
    | .error e => ([Ev.memAdd "user".toList text], some e)
    | .ok resp =>
      match mem2 with
      | some e =>
        ([Ev.memAdd "user".toList text, Ev.memAdd "assistant".toList resp], some e)
      | none =>
        ([Ev.memAdd "user".toList text, Ev.memAdd "assistant".toList resp,
          Ev.message resp "assistant".toList] ++ speakEvs resp, none)

/-- The full event trace of one `process_input(text)` call:
whitespace-only input returns before any effect; otherwise the
`thinking` state is emitted, the `try` body runs, an exception is
converted to an error message and spoken, and the `finally` block
emits `listening` (when continuous listening is active) or `idle`. -/
def processInputTrace (isListening : Bool) (text : List Char)
    (handlerRes : List Char → Except (List Char) (List Char))
    (mem1 mem2 : Option (List Char))
    (aiRes : Except (List Char) (List Char)) : List Ev :=
  if pyStrip text = [] then []
  else
    let handled : List Ev :=
      match processInputBody text handlerRes mem1 mem2 aiRes with
      | (evs, none) => evs
      | (evs, some e) =>
        evs ++ [Ev.message (errorReply e) "error".toList] ++ speakEvs (errorReply e)
    Ev.state "thinking".toList ::
      (handled ++ [Ev.state (if isListening then "listening".toList else "idle".toList)])

/-- The state transition recorded by an event, if any. -/
def stateOf : Ev → Option (List Char)
  | .state s => some s
  | _ => none

/-- The sequence of state transitions in a trace. -/
def statesOf (t : List Ev) : List (List Char) :=
  t.filterMap stateOf

/-! ## The speaking phase: `speak` and
`_animate_particles_while_speaking` (assistant.py:196-233)

asyncio schedules cooperatively: a task runs uninterrupted from one
suspension point to the next, and a freshly created task first runs
only once its creator suspends.  The model therefore steps two task
programs — MAIN (the body of `speak`) and TICKER (the particle-mode
loop) — by atomic segments between suspension points, interleaved by
an arbitrary scheduling oracle (a list of booleans).  Scheduling a
task that cannot run is a no-op, so the oracle ranges over every
cooperative interleaving, a superset of the real-time behaviours.

MAIN's segments mirror `speak`: set `is_speaking`, emit the
`speaking` state, create the ticker task and enter `tts.speak`
(`synthEnter`) — all before MAIN's first yield; then `synthSteps`
resumptions inside synthesis; then (on completion *or* failure of
synthesis) the `finally` block: clear `is_speaking`, `cancel()` the
ticker and block awaiting it; once the ticker has finished, swallow
any `CancelledError` from the join and return, propagating only the
synthesis outcome.

TICKER mirrors `_animate_particles_while_speaking`: if cancelled
before it ever ran it just ends; otherwise it loops while
`is_speaking`, emitting a mode event then sleeping; a cancellation
delivered at the sleep is caught by its own
`except asyncio.CancelledError: pass` and the task ends. -/

/-- Events observable from the speaking phase. -/
inductive SpEv where
  | stateSpeaking : SpEv
  | synthEnter : SpEv
  | synthDone : SpEv
  | tickMode (m : Nat) : SpEv
deriving DecidableEq

/-- Program counter of MAIN (the body of `speak`). -/
inductive MainPc where
  | start : MainPc
  | synth (k : Nat) : MainPc
  | joining : MainPc
  | finished (ok : Bool) : MainPc
deriving DecidableEq

/-- Program counter of TICKER. -/
inductive TickPc where
  | notStarted : TickPc
  | sleeping (n : Nat) : TickPc
  | finished : TickPc
deriving DecidableEq

/-- Joint state of the speaking phase. -/
structure SpeakSys where
  isSpeaking : Bool
  created : Bool
  cancelled : Bool
  main : MainPc
  ticker : TickPc
  trace : List SpEv
deriving DecidableEq

/-- Initial state: `speak` about to run, no ticker task exists. -/
def spInit : SpeakSys := ⟨false, false, false, .start, .notStarted, []⟩

/-- One atomic segment of MAIN.  `synthSteps` is the number of
suspension points inside `tts.speak`; `synthOk` is the synthesis
outcome (`false` models `tts.speak` raising, which `speak` re-raises
only after its `finally` block). -/
def mainStep (synthSteps : Nat) (synthOk : Bool) (s : SpeakSys) : SpeakSys :=
  match s.main with
  | .start =>
    { s with isSpeaking := true, created := true, main := .synth synthSteps,
             trace := s.trace ++ [.stateSpeaking, .synthEnter] }
  | .synth (k + 1) => { s with main := .synth k }
  | .synth 0 =>
    { s with isSpeaking := false, cancelled := true, main := .joining,
             trace := s.trace ++ [.synthDone] }
  | .joining =>
    if s.ticker = .finished then { s with main := .finished synthOk } else s
  | .finished _ => s

/-- One atomic segment of TICKER.  `modeOf n` is the n-th randomly
chosen particle mode. -/
def tickStep (modeOf : Nat → Nat) (s : SpeakSys) : SpeakSys :=
  if !s.created then s
  else
    match s.ticker with
    | .notStarted =>
      if s.cancelled then { s with ticker := .finished }
      else if s.isSpeaking then
        { s with ticker := .sleeping 0, trace := s.trace ++ [.tickMode (modeOf 0)] }
      else { s with ticker := .finished }
    | .sleeping n =>
      if s.cancelled then { s with ticker := .finished }
      else if s.isSpeaking then
        { s with ticker := .sleeping (n + 1),
                 trace := s.trace ++ [.tickMode (modeOf (n + 1))] }
      else { s with ticker := .finished }
    | .finished => s

/-- Run the two tasks under a scheduling oracle (`true` steps MAIN,
`false` steps TICKER). -/
def spRun (synthSteps : Nat) (synthOk : Bool) (modeOf : Nat → Nat) :
    List Bool → SpeakSys → SpeakSys
  | [], s => s
  | c :: cs, s =>
    spRun synthSteps synthOk modeOf cs
      (if c then mainStep synthSteps synthOk s else tickStep modeOf s)

/-- Invariant of the speaking phase, holding in the initial state and
preserved by both tasks under every schedule: before the ticker task
is created nothing has run; once it is created, the trace starts with
the `speaking` state followed by synthesis entry (so every ticker
event is strictly later); a `joining` MAIN has already cancelled the
ticker; and a finished MAIN implies a finished (joined) ticker, a
delivered cancellation, and an outcome equal to the synthesis
outcome (so no cancellation signal escapes `speak`). -/
def SpInv (synthOk : Bool) (s : SpeakSys) : Prop :=
  (s.created = false → s.trace = [] ∧ s.main = .start ∧
    s.ticker = .notStarted ∧ s.cancelled = false) ∧
  (s.created = true → ∃ rest, s.trace = .stateSpeaking :: .synthEnter :: rest) ∧
  (∀ b, s.main = .finished b → s.ticker = .finished ∧ s.cancelled = true ∧ b = synthOk) ∧
  (s.main = .joining → s.cancelled = true)

/-! ### Concrete inputs used by the claim theorems -/

/-- A model reply that embeds one action in a fenced block. -/
def c1Reply : List Char :=
  "Certo!\n```json\n\x7b\"actions\": [\x7b\"type\": \"open_app\", \"app\": \"chrome\"\x7d]\x7d\n```".toList

/-- A reply whose fenced block is preceded by prose ending in a
newline. -/
def c2Reply : List Char :=
  "Hi\n```json\n\x7b\"actions\": [1]\x7d\n```".toList

/-- A reply with a malformed fenced block followed by a well-formed
bare actions object. -/
def c3Reply : List Char :=
  "```json\n\x7boops\x7d\n``` \x7b\"actions\": [1]\x7d".toList

/-- A reply whose fenced block is valid JSON without a top-level
`actions` key but with a nested `actions` object in its text. -/
def c10Reply : List Char :=
  "```json\n\x7b\"a\": \x7b\"actions\": [1]\x7d\x7d\n```".toList

/-! ## Supporting lemmas -/

theorem containsSub_eq_true_iff {s p : List Char} :
    containsSub s p = true ↔ p <:+: s := by
  induction s with
  | nil =>
    simp [containsSub, List.isEmpty_iff, List.infix_nil]
  | cons c t ih =>
    simp only [containsSub, Bool.or_eq_true, List.isPrefixOf_iff_prefix, ih]
    constructor
    · rintro (h | h)
      · exact h.isInfix
      · exact h.trans (List.suffix_cons c t).isInfix
    · intro h
      rcases (List.infix_cons_iff).1 h with h | h
      · exact Or.inl h
      · exact Or.inr h

theorem containsSub_map {s p : List Char} (f : Char → Char)
    (h : containsSub s p = true) :
    containsSub (s.map f) (p.map f) = true := by
  rw [containsSub_eq_true_iff] at h ⊢
  exact h.map f

theorem containsSub_of_infix_of_containsSub {s p q : List Char}
    (hpq : p <:+: q) (h : containsSub s q = true) :
    containsSub s p = true := by
  rw [containsSub_eq_true_iff] at h ⊢
  exact hpq.trans h

theorem containsSub_append_middle (a d b : List Char) :
    containsSub (a ++ d ++ b) d = true := by
  rw [containsSub_eq_true_iff]
  exact ⟨a, b, rfl⟩

theorem pyStrip_length_le (s : List Char) :
    (pyStrip s).length ≤ s.length := by
  unfold pyStrip
  calc ((s.dropWhile pyIsSpace).reverse.dropWhile pyIsSpace).reverse.length
      = ((s.dropWhile pyIsSpace).reverse.dropWhile pyIsSpace).length := by
        rw [List.length_reverse]
    _ ≤ (s.dropWhile pyIsSpace).reverse.length :=
        (List.dropWhile_suffix _).length_le
    _ = (s.dropWhile pyIsSpace).length := by rw [List.length_reverse]
    _ ≤ s.length := (List.dropWhile_suffix _).length_le

theorem pyStrip_eq_nil_of_all_space {s : List Char}
    (h : ∀ c ∈ s, pyIsSpace c = true) : pyStrip s = [] := by
  have h1 : s.dropWhile pyIsSpace = [] := List.dropWhile_eq_nil_iff.2 h
  simp [pyStrip, h1]

theorem lazyCloseFenced_tail_le {acc r g tail : List Char}
    (h : lazyCloseFenced acc r = some (g, tail)) :
    tail.length ≤ r.length := by
  induction r generalizing acc with
  | nil => simp [lazyCloseFenced] at h
  | cons c rest ih =>
    rw [lazyCloseFenced] at h
    split at h
    · simp only [Option.some.injEq, Prod.mk.injEq] at h
      obtain ⟨-, rfl⟩ := h
      calc ((dropWs rest).drop 3).length ≤ (dropWs rest).length :=
            (List.drop_suffix _ _).length_le
        _ ≤ rest.length := (List.dropWhile_suffix _).length_le
        _ ≤ (c :: rest).length := by simp
    · exact le_trans (ih h) (by simp)

theorem fencedMatchAt_tail_lt {s g tail : List Char}
    (h : fencedMatchAt s = some (g, tail)) :
    tail.length < s.length := by
  rw [fencedMatchAt] at h
  split at h
  · rename_i hpre
    have hlen7 : 7 ≤ s.length := by
      have := (List.isPrefixOf_iff_prefix.1 hpre).length_le
      simpa [fencedOpen] using this
    split at h
    · rename_i r1 heq
      have h1 : tail.length ≤ r1.length := lazyCloseFenced_tail_le h
      have h2 : ('{' :: r1).length ≤ (s.drop 7).length := by
        rw [← heq]
        exact (List.dropWhile_suffix _).length_le
      have h3 : (s.drop 7).length = s.length - 7 := List.length_drop 7 s
      simp only [List.length_cons] at h2
      omega
    · exact absurd h (by simp)
  · exact absurd h (by simp)

theorem fencedSearch_pre_tail_lt {s : List Char} {m : FMatch}
    (h : fencedSearch s = some m) :
    m.pre.length + m.tail.length < s.length := by
  induction s generalizing m with
  | nil => simp [fencedSearch] at h
  | cons c t ih =>
    rw [fencedSearch] at h
    split at h
    · rename_i g tail heq
      cases h
      simpa using fencedMatchAt_tail_lt heq
    · rcases Option.map_eq_some'.1 h with ⟨m', hm', rfl⟩
      have := ih hm'
      simp only [List.length_cons]
      omega

theorem fencedSubGo_length_le :
    ∀ (fuel : Nat) (s : List Char), (fencedSubGo fuel s).length ≤ s.length := by
  intro fuel
  induction fuel with
  | zero => intro s; simp [fencedSubGo]
  | succ n ih =>
    intro s
    rw [fencedSubGo]
    split
    · exact le_rfl
    · rename_i m heq
      have h1 := fencedSearch_pre_tail_lt heq
      have h2 := ih m.tail
      simp only [List.length_append]
      omega

theorem fencedSub_length_lt {s : List Char} {m : FMatch}
    (h : fencedSearch s = some m) :
    (fencedSub s).length < s.length := by
  have hne : s ≠ [] := by
    intro hs
    rw [hs] at h
    simp [fencedSearch] at h
  obtain ⟨c, t, rfl⟩ := List.exists_cons_of_ne_nil hne
  have h1 := fencedSearch_pre_tail_lt h
  have h2 := fencedSubGo_length_le t.length m.tail
  rw [fencedSub]
  simp only [List.length_cons]
  rw [fencedSubGo, h]
  simp only [List.length_append, List.length_cons] at h1 ⊢
  omega

theorem lazyCloseBare_tail_le {n : Nat} {r tail : List Char}
    (h : lazyCloseBare n r = some tail) :
    tail.length ≤ r.length := by
  induction r generalizing n with
  | nil => simp [lazyCloseBare] at h
  | cons c rest ih =>
    rw [lazyCloseBare] at h
    split at h
    · split at h
      · rename_i tail' heq
        cases h
        have h2 : ('}' :: tail).length ≤ rest.length := by
          rw [← heq]
          exact (List.dropWhile_suffix _).length_le
        simp only [List.length_cons] at h2 ⊢
        omega
      · exact le_trans (ih h) (by simp)
    · exact le_trans (ih h) (by simp)

theorem bareMatchAfterBrace_tail_lt {r0 tail : List Char}
    (h : bareMatchAfterBrace r0 = some tail) :
    tail.length < r0.length + 1 := by
  rw [bareMatchAfterBrace] at h
  split at h
  · split at h
    · rename_i r3 heq3
      split at h
      · rename_i r5 heq5
        have h1 : tail.length ≤ r5.length := lazyCloseBare_tail_le h
        have h2 : (':' :: r3).length ≤ (dropWs r0).length - 9 := by
          rw [← heq3]
          calc (dropWs ((dropWs r0).drop 9)).length
              ≤ ((dropWs r0).drop 9).length := (List.dropWhile_suffix _).length_le
            _ = (dropWs r0).length - 9 := List.length_drop 9 _
        have h3 : ('[' :: r5).length ≤ r3.length := by
          rw [← heq5]
          exact (List.dropWhile_suffix _).length_le
        have h4 : (dropWs r0).length ≤ r0.length :=
          (List.dropWhile_suffix _).length_le
        simp only [List.length_cons] at h2 h3 ⊢
        omega
      · exact absurd h (by simp)
    · exact absurd h (by simp)
  · exact absurd h (by simp)

theorem bareMatchAt_tail_lt {s tail : List Char}
    (h : bareMatchAt s = some tail) :
    tail.length < s.length := by
  cases s with
  | nil => simp [bareMatchAt] at h
  | cons c r0 =>
    rw [bareMatchAt] at h
    split at h
    · simpa using bareMatchAfterBrace_tail_lt h
    · exact absurd h (by simp)

theorem bareSearch_pre_tail_lt {s : List Char} {m : BMatch}
    (h : bareSearch s = some m) :
    m.pre.length + m.tail.length < s.length := by
  induction s generalizing m with
  | nil => simp [bareSearch] at h
  | cons c t ih =>
    rw [bareSearch] at h
    split at h
    · rename_i tail heq
      cases h
      simpa using bareMatchAt_tail_lt heq
    · rcases Option.map_eq_some'.1 h with ⟨m', hm', rfl⟩
      have := ih hm'
      simp only [List.length_cons]
      omega

/-! ## Claim theorems -/

/-- C4: every command containing `"rm -rf /"`, submitted to
`execute_smart_command` in safe mode, is rejected with the explicit
denial message naming the blocked denylist pattern, and the
OS-executor branch (`subprocess.run`, modelled by `dispatched`) is
never reached. -/
theorem smart_command_blocks_rm_rf (command : List Char)
    (h : containsSub command "rm -rf /".toList = true) :
    ∃ d, d ∈ dangerousCommands ∧
      execute_smart_command command true = .rejected (blockMsg d) ∧
      containsSub (blockMsg d) d = true ∧
      ∀ c, execute_smart_command command true ≠ .dispatched c := by
  have hmap : containsSub (pyLower command) "rm -rf /".toList = true := by
    have h1 := containsSub_map Char.toLower h
    have h2 : "rm -rf /".toList.map Char.toLower = "rm -rf /".toList := by decide
    rw [h2] at h1
    exact h1
  have hrm : containsSub (pyLower command) "rm ".toList = true :=
    containsSub_of_infix_of_containsSub (by decide) hmap
  have hfind : ∃ d, (dangerousCommands.find? fun d =>
      containsSub (pyLower command) d) = some d := by
    cases hf : dangerousCommands.find? fun d => containsSub (pyLower command) d with
    | some d => exact ⟨d, rfl⟩
    | none =>
      have hmem : "rm ".toList ∈ dangerousCommands := by decide
      have h3 : containsSub (pyLower command) "rm ".toList = false := by
        simpa using List.find?_eq_none.1 hf _ hmem
      rw [hrm] at h3
      exact Bool.noConfusion h3
  obtain ⟨d, hd⟩ := hfind
  refine ⟨d, List.mem_of_find?_eq_some hd, ?_, ?_, ?_⟩
  · simp [execute_smart_command, hd]
  · exact containsSub_append_middle _ d _
  · intro c hc
    simp [execute_smart_command, hd] at hc

/-- Witness for C4 at a concrete command. -/
theorem smart_command_blocks_rm_rf_witness :
    containsSub "sudo rm -rf / agora".toList "rm -rf /".toList = true ∧
    ∃ d, d ∈ dangerousCommands ∧
      execute_smart_command "sudo rm -rf / agora".toList true = .rejected (blockMsg d) ∧
      containsSub (blockMsg d) d = true ∧
      ∀ c, execute_smart_command "sudo rm -rf / agora".toList true ≠ .dispatched c :=
  ⟨by decide, smart_command_blocks_rm_rf _ (by decide)⟩

/-- C5 (code bug): a speech burst of a single 0.3 s chunk — shorter
than the 0.5 s minimum speech duration — followed by the full silence
window is *returned* as an utterance (including its four trailing
silence chunks), not discarded: the `len(chunks) >= min_speech_chunks`
check counts the silence chunks appended during the pause and
`min_speech_chunks = int(0.5/0.3) = 1`, so the
`# Too short, reset and keep listening` branch can never fire
(at the check, `len(chunks) >= 1 + max_silence_chunks > 1`). -/
theorem segmenter_returns_short_burst :
    segRun segInit [[1], [0], [0], [0], [0]] =
      SegOut.utter [1, 0, 0, 0, 0]
        [.volumeEv (volume [1]), .speechStart, .volumeEv (volume [0]),
         .volumeEv (volume [0]), .volumeEv (volume [0]), .volumeEv (volume [0]),
         .speechEnd] := by
  have h1 : silenceThreshold < volume [(1 : ℚ)] := by
    norm_num [volume, silenceThreshold]
  have h0 : ¬ silenceThreshold < volume [(0 : ℚ)] := by
    norm_num [volume, silenceThreshold]
  simp [segRun, segStep, segInit, h1, h0, maxSilenceChunks, minSpeechChunks]

/-- Helper, generalized over the loop state: if every frame stays at
or below the silence threshold, the waiting counter ticks up on every
frame and the loop returns `None` when it reaches the wait timeout,
without ever signalling a speech start. -/
theorem segRun_timeout_of_quiet :
    ∀ (frames : List (List ℚ)) (st : SegState),
      (∀ f ∈ frames, volume f ≤ silenceThreshold) →
      st.speechDetected = false →
      SegEv.speechStart ∉ st.events →
      st.waitingCount < maxWaiting →
      maxWaiting ≤ st.waitingCount + frames.length →
      ∃ evs, segRun st frames = SegOut.timeout evs ∧ SegEv.speechStart ∉ evs := by
  intro frames
  induction frames with
  | nil =>
    intro st _ _ _ hlt hge
    simp only [List.length_nil, Nat.add_zero] at hge
    omega
  | cons f fs ih =>
    intro st hq hdet hse hlt hge
    rw [segRun]
    have hv : ¬ silenceThreshold < volume f := not_lt.2 (hq f (by simp))
    rw [segStep]
    simp only [if_neg hv, hdet, Bool.false_eq_true, if_neg (by simp : ¬False)]
    by_cases hw : maxWaiting ≤ st.waitingCount + 1
    · rw [if_pos hw]
      refine ⟨st.events ++ [SegEv.volumeEv (volume f)], rfl, ?_⟩
      simp [hse]
    · rw [if_neg hw]
      refine ih _ (fun g hg => hq g (by simp [hg])) rfl ?_ ?_ ?_
      · simp [hse]
      · show st.waitingCount + 1 < maxWaiting
        omega
      · show maxWaiting ≤ st.waitingCount + 1 + fs.length
        simp only [List.length_cons] at hge
        omega

/-- C6: for every frame sequence in which each frame's mean absolute
amplitude stays at or below the silence threshold, `_record_audio`
returns `None` once the wait-timeout number of frames has elapsed,
and the `on_speech_start` callback is never invoked. -/
theorem record_audio_timeout_on_silence (frames : List (List ℚ))
    (hq : ∀ f ∈ frames, volume f ≤ silenceThreshold)
    (hlen : maxWaiting ≤ frames.length) :
    ∃ evs, segRun segInit frames = SegOut.timeout evs ∧
      SegEv.speechStart ∉ evs :=
  segRun_timeout_of_quiet frames segInit hq rfl (by simp [segInit])
    (by simp [segInit, maxWaiting]) (by simpa [segInit] using hlen)

/-- Witness for C6: 33 all-zero frames. -/
theorem record_audio_timeout_on_silence_witness :
    ∃ evs, segRun segInit (List.replicate 33 [(0 : ℚ)]) = SegOut.timeout evs ∧
      SegEv.speechStart ∉ evs :=
  record_audio_timeout_on_silence _
    (by
      intro f hf
      rw [List.eq_of_mem_replicate hf]
      norm_num [volume, silenceThreshold])
    (by simp [maxWaiting])

/-- C9: empty or whitespace-only input makes `process_input` return
immediately: no state or message event is emitted (so `current_state`
is unchanged) and nothing is appended to conversation memory — the
trace is empty. -/
theorem process_input_ignores_blank (isListening : Bool) (text : List Char)
    (handlerRes : List Char → Except (List Char) (List Char))
    (mem1 mem2 : Option (List Char))
    (aiRes : Except (List Char) (List Char))
    (h : text = [] ∨ ∀ c ∈ text, pyIsSpace c = true) :
    processInputTrace isListening text handlerRes mem1 mem2 aiRes = [] := by
  have hs : pyStrip text = [] := by
    rcases h with rfl | h
    · rfl
    · exact pyStrip_eq_nil_of_all_space h
  simp [processInputTrace, hs]

/-- Witness for C9 at a whitespace-only input. -/
theorem process_input_ignores_blank_witness :
    processInputTrace true "  \t ".toList (fun _ => .ok []) none none
      (.ok "resposta".toList) = [] :=
  process_input_ignores_blank true _ _ none none _ (Or.inr (by decide))

/-- The `try` body of `process_input` emits exactly one state
transition (`speaking`, inside `speak`) when it completes, and none
when it is aborted by an exception. -/
theorem processInputBody_states (text : List Char)
    (handlerRes : List Char → Except (List Char) (List Char))
    (mem1 mem2 : Option (List Char))
    (aiRes : Except (List Char) (List Char)) :
    (∀ evs, processInputBody text handlerRes mem1 mem2 aiRes = (evs, none) →
      statesOf evs = ["speaking".toList]) ∧
    (∀ evs e, processInputBody text handlerRes mem1 mem2 aiRes = (evs, some e) →
      statesOf evs = []) := by
  unfold processInputBody
  cases mem1 with
  | some e =>
    constructor
    · intro evs hevs
      simp at hevs
    · intro evs e' hevs
      simp only [Prod.mk.injEq] at hevs
      rw [← hevs.1]
      simp [statesOf, stateOf]
  | none =>
    cases hresp : (match checkSystemCommand text handlerRes with
      | some r => if r = [] then aiRes else Except.ok r
      | none => aiRes) with
    | error e =>
      constructor
      · intro evs hevs
        simp at hevs
      · intro evs e' hevs
        simp only [Prod.mk.injEq] at hevs
        rw [← hevs.1]
        simp [statesOf, stateOf]
    | ok resp =>
      cases mem2 with
      | some e =>
        constructor
        · intro evs hevs
          simp at hevs
        · intro evs e' hevs
          simp only [Prod.mk.injEq] at hevs
          rw [← hevs.1]
          simp [statesOf, stateOf]
      | none =>
        constructor
        · intro evs hevs
          simp only [Prod.mk.injEq] at hevs
          rw [← hevs.1]
          simp [statesOf, stateOf, speakEvs]
        · intro evs e' hevs
          simp at hevs

/-- C7: for every non-blank input, whatever the outcomes of the
collaborators (system-command handler, both memory writes, the
language-model call — which may raise), the state transitions of the
turn are exactly `thinking`, then `speaking`, then `listening` when
continuous listening is active or `idle` otherwise; in particular the
turn never ends in `thinking` or `speaking`. -/
theorem process_input_state_sequence (isListening : Bool) (text : List Char)
    (handlerRes : List Char → Except (List Char) (List Char))
    (mem1 mem2 : Option (List Char))
    (aiRes : Except (List Char) (List Char))
    (h : pyStrip text ≠ []) :
    statesOf (processInputTrace isListening text handlerRes mem1 mem2 aiRes) =
      ["thinking".toList, "speaking".toList,
       if isListening then "listening".toList else "idle".toList] := by
  rw [processInputTrace, if_neg h]
  have hb := processInputBody_states text handlerRes mem1 mem2 aiRes
  rcases he : processInputBody text handlerRes mem1 mem2 aiRes with ⟨evs, exc⟩
  cases exc with
  | none =>
    have h1 := hb.1 evs he
    simp only [statesOf] at h1 ⊢
    simp [stateOf, h1]
  | some e =>
    have h1 := hb.2 evs e he
    simp only [statesOf] at h1 ⊢
    simp [stateOf, speakEvs, h1]

/-- Witness for C7 on a concrete successful turn. -/
theorem process_input_state_sequence_witness :
    statesOf (processInputTrace true "ola".toList (fun _ => .ok []) none none
      (.ok "oi".toList)) =
      ["thinking".toList, "speaking".toList, "listening".toList] :=
  process_input_state_sequence true _ _ none none _ (by decide)

/-- C1 (code bug): `process_input` never invokes the Action Protocol.
On a turn whose model reply carries a fenced actions block, the raw
reply — fenced block included — is appended to memory, emitted and
spoken verbatim, and no action is executed, although
`parse_response_with_actions` would have extracted one `open_app`
action and a cleaned message (`grep` shows no caller of
`parse_response_with_actions` or `execute_action` in the repository). -/
theorem orchestrator_skips_action_protocol :
    processInputTrace true "abra o chrome".toList (fun _ => .ok []) none none
      (.ok c1Reply) =
      [Ev.state "thinking".toList,
       Ev.memAdd "user".toList "abra o chrome".toList,
       Ev.memAdd "assistant".toList c1Reply,
       Ev.message c1Reply "assistant".toList,
       Ev.state "speaking".toList,
       Ev.ttsSpeak c1Reply,
       Ev.state "listening".toList] ∧
    (parse_response_with_actions c1Reply).actions =
      Json.arr [Json.obj
        [("type".toList.map Char.toNat, Json.str ("open_app".toList.map Char.toNat)),
         ("app".toList.map Char.toNat, Json.str ("chrome".toList.map Char.toNat))]] ∧
    (parse_response_with_actions c1Reply).message = "Certo!".toList ∧
    (parse_response_with_actions c1Reply).message ≠ c1Reply :=
  ⟨by decide, rfl, rfl, by decide⟩

/-- C2 (amended): when the reply contains a fenced block whose
content is valid JSON with a non-empty `actions` list, exactly those
actions are returned and the message is the reply with every fenced
match removed *and surrounding whitespace stripped*; when the reply
contains no fenced and no bare actions block, the actions are empty
and the message is the input unchanged. -/
theorem parse_reply_fenced_extract_and_passthrough (response : List Char) :
    (∀ fm kvs acts, fencedSearch response = some fm →
        jsonLoads fm.group = some (Json.obj kvs) →
        jsonGet kvs actionsKey = some (Json.arr acts) →
        acts ≠ [] →
        parse_response_with_actions response =
          ⟨pyStrip (fencedSub response), Json.arr acts⟩) ∧
    (fencedSearch response = none → bareSearch response = none →
        parse_response_with_actions response = ⟨response, Json.arr []⟩) := by
  constructor
  · intro fm kvs acts hf hj hg hne
    have htruthy : pyTruthy (Json.arr acts) = true := by
      cases acts with
      | nil => exact absurd rfl hne
      | cons a t => simp [pyTruthy]
    simp [parse_response_with_actions, hf, hj, actionsOf, hg, htruthy]
  · intro hf hb
    simp [parse_response_with_actions, hf, pyTruthy, hb]

/-- C2 counterexample: on `"Hi\n"` followed by a fenced actions
block, the returned message is `"Hi"`, while the reply with the
fenced block removed is `"Hi\n"` — the claim's equality fails because
the code additionally strips surrounding whitespace. -/
theorem parse_reply_strip_counterexample :
    parse_response_with_actions c2Reply =
      ⟨"Hi".toList, Json.arr [Json.num ['1']]⟩ ∧
    fencedSub c2Reply = "Hi\n".toList ∧
    ("Hi".toList : List Char) ≠ "Hi\n".toList :=
  ⟨rfl, rfl, by decide⟩

/-- Witness for C2 at concrete replies for both halves. -/
theorem parse_reply_fenced_extract_and_passthrough_witness :
    parse_response_with_actions "Oi\n```json\n\x7b\"actions\": [2]\x7d\n```".toList =
      ⟨"Oi".toList, Json.arr [Json.num ['2']]⟩ ∧
    parse_response_with_actions "sem acoes aqui".toList =
      ⟨"sem acoes aqui".toList, Json.arr []⟩ := by
  constructor
  · have h := (parse_reply_fenced_extract_and_passthrough
        "Oi\n```json\n\x7b\"actions\": [2]\x7d\n```".toList).1
      ⟨"Oi\n".toList, "\x7b\"actions\": [2]\x7d".toList, []⟩
      [(actionsKey, Json.arr [Json.num ['2']])] [Json.num ['2']]
      rfl rfl rfl (List.cons_ne_nil _ _)
    exact h.trans rfl
  · exact (parse_reply_fenced_extract_and_passthrough
      "sem acoes aqui".toList).2 rfl rfl

/-- C3 (amended): a malformed fenced block contributes no actions,
leaves the message untouched and raises nothing (the embedding is a
total function); when additionally no bare actions object is found by
the fallback, the result is zero actions and the original text. -/
theorem parse_reply_malformed_fenced (response : List Char) :
    ∀ fm, fencedSearch response = some fm →
      jsonLoads fm.group = none →
      bareSearch response = none →
      parse_response_with_actions response = ⟨response, Json.arr []⟩ := by
  intro fm hf hj hb
  simp [parse_response_with_actions, hf, hj, pyTruthy, hb]

/-- C3 counterexample: a reply with a malformed fenced block *and* a
bare actions object elsewhere.  The fenced parse fails, but the
fallback finds the bare object: the result has one action and a
modified message — not zero actions with the original text, as the
claim states for every reply with a malformed fenced block. -/
theorem parse_reply_malformed_fallback_counterexample :
    fencedSearch c3Reply =
      some ⟨[], "\x7boops\x7d".toList, " \x7b\"actions\": [1]\x7d".toList⟩ ∧
    jsonLoads "\x7boops\x7d".toList = none ∧
    parse_response_with_actions c3Reply =
      ⟨"```json\n\x7boops\x7d\n```".toList, Json.arr [Json.num ['1']]⟩ ∧
    Json.arr [Json.num ['1']] ≠ Json.arr [] ∧
    "```json\n\x7boops\x7d\n```".toList ≠ c3Reply :=
  ⟨rfl, rfl, rfl,
   fun h => by injection h with h'; exact List.cons_ne_nil _ _ h',
   by decide⟩

/-- Witness for C3 at a reply whose only block is malformed. -/
theorem parse_reply_malformed_fenced_witness :
    parse_response_with_actions "```json\n\x7bbad\x7d\n```".toList =
      ⟨"```json\n\x7bbad\x7d\n```".toList, Json.arr []⟩ :=
  parse_reply_malformed_fenced _ ⟨[], "\x7bbad\x7d".toList, []⟩ rfl rfl rfl

/-- C10 (amended): a fenced block of valid JSON without an `actions`
key yields empty actions while the message still has the fenced block
removed and surrounding whitespace stripped — hence differs from the
original input — provided the fallback finds no bare actions object
in the reply. -/
theorem parse_reply_no_actions_key (response : List Char) :
    ∀ fm kvs, fencedSearch response = some fm →
      jsonLoads fm.group = some (Json.obj kvs) →
      jsonGet kvs actionsKey = none →
      bareSearch response = none →
      parse_response_with_actions response =
        ⟨pyStrip (fencedSub response), Json.arr []⟩ ∧
      (parse_response_with_actions response).message.length < response.length ∧
      (parse_response_with_actions response).message ≠ response := by
  intro fm kvs hf hj hg hb
  have hres : parse_response_with_actions response =
      ⟨pyStrip (fencedSub response), Json.arr []⟩ := by
    simp [parse_response_with_actions, hf, hj, actionsOf, hg, pyTruthy, hb]
  have hlen : (parse_response_with_actions response).message.length <
      response.length := by
    rw [hres]
    calc (pyStrip (fencedSub response)).length
        ≤ (fencedSub response).length := pyStrip_length_le _
      _ < response.length := fencedSub_length_lt hf
  refine ⟨hres, hlen, fun he => ?_⟩
  rw [he] at hlen
  exact lt_irrefl _ hlen

/-- C10 counterexample: the fenced JSON has no top-level `actions`
key, but its text contains a nested bare actions object; the fallback
finds it, so the actions are *not* empty as the claim requires. -/
theorem parse_reply_nested_actions_counterexample :
    fencedSearch c10Reply =
      some ⟨[], "\x7b\"a\": \x7b\"actions\": [1]\x7d\x7d".toList, []⟩ ∧
    jsonLoads "\x7b\"a\": \x7b\"actions\": [1]\x7d\x7d".toList =
      some (Json.obj [("a".toList.map Char.toNat,
        Json.obj [(actionsKey, Json.arr [Json.num ['1']])])]) ∧
    jsonGet [("a".toList.map Char.toNat,
        Json.obj [(actionsKey, Json.arr [Json.num ['1']])])] actionsKey = none ∧
    (parse_response_with_actions c10Reply).actions = Json.arr [Json.num ['1']] ∧
    Json.arr [Json.num ['1']] ≠ Json.arr [] :=
  ⟨rfl, rfl, rfl, rfl,
   fun h => by injection h with h'; exact List.cons_ne_nil _ _ h'⟩

/-- Witness for C10 at a reply with no nested actions text. -/
theorem parse_reply_no_actions_key_witness :
    parse_response_with_actions "x ```json\n\x7b\"k\": 1\x7d\n```".toList =
      ⟨pyStrip (fencedSub "x ```json\n\x7b\"k\": 1\x7d\n```".toList), Json.arr []⟩ ∧
    (parse_response_with_actions "x ```json\n\x7b\"k\": 1\x7d\n```".toList).message.length <
      "x ```json\n\x7b\"k\": 1\x7d\n```".toList.length ∧
    (parse_response_with_actions "x ```json\n\x7b\"k\": 1\x7d\n```".toList).message ≠
      "x ```json\n\x7b\"k\": 1\x7d\n```".toList :=
  parse_reply_no_actions_key _ ⟨"x ".toList, "\x7b\"k\": 1\x7d".toList, []⟩
    [("k".toList.map Char.toNat, Json.num ['1'])] rfl rfl rfl rfl

/-- The speaking-phase invariant holds initially. -/
theorem spInv_init (ok : Bool) : SpInv ok spInit := by
  refine ⟨fun _ => ⟨rfl, rfl, rfl, rfl⟩, fun h => ?_, fun b hb => ?_, fun h => ?_⟩
  · simp [spInit] at h
  · simp [spInit] at hb
  · simp [spInit] at h

/-- The speaking-phase invariant is preserved by a MAIN segment. -/
theorem spInv_mainStep {ok : Bool} (steps : Nat) {s : SpeakSys}
    (hinv : SpInv ok s) : SpInv ok (mainStep steps ok s) := by
  obtain ⟨h1, h2, h3, h4⟩ := hinv
  cases hm : s.main with
  | start =>
    simp only [mainStep, hm]
    refine ⟨fun h => by simp at h, fun _ => ?_, fun b hb => by simp at hb,
      fun h => by simp at h⟩
    cases hc : s.created with
    | false =>
      rw [(h1 hc).1]
      exact ⟨[], rfl⟩
    | true =>
      obtain ⟨r, hr⟩ := h2 hc
      rw [hr]
      exact ⟨r ++ [.stateSpeaking, .synthEnter], by simp⟩
  | synth k =>
    cases k with
    | zero =>
      simp only [mainStep, hm]
      refine ⟨fun h => ?_, fun h => ?_, fun b hb => by simp at hb, fun _ => rfl⟩
      · have hstart := (h1 h).2.1
        rw [hm] at hstart
        exact absurd hstart (by simp)
      · obtain ⟨r, hr⟩ := h2 h
        rw [hr]
        exact ⟨r ++ [.synthDone], by simp⟩
    | succ n =>
      simp only [mainStep, hm]
      refine ⟨fun h => ?_, h2, fun b hb => by simp at hb, fun h => by simp at h⟩
      have hstart := (h1 h).2.1
      rw [hm] at hstart
      exact absurd hstart (by simp)
  | joining =>
    simp only [mainStep, hm]
    split
    · rename_i ht
      refine ⟨fun h => ?_, h2, fun b hb => ?_, fun h => by simp at h⟩
      · have hstart := (h1 h).2.1
        rw [hm] at hstart
        exact absurd hstart (by simp)
      · simp only [MainPc.finished.injEq] at hb
        exact ⟨ht, h4 hm, hb.symm⟩
    · exact ⟨h1, h2, h3, h4⟩
  | finished b0 =>
    simp only [mainStep, hm]
    exact ⟨h1, h2, h3, h4⟩

/-- The speaking-phase invariant is preserved by a TICKER segment. -/
theorem spInv_tickStep {ok : Bool} (modeOf : Nat → Nat) {s : SpeakSys}
    (hinv : SpInv ok s) : SpInv ok (tickStep modeOf s) := by
  obtain ⟨h1, h2, h3, h4⟩ := hinv
  by_cases hcr : s.created = true
  · cases ht : s.ticker with
    | finished =>
      have hstep : tickStep modeOf s = s := by
        simp [tickStep, hcr, ht]
      rw [hstep]
      exact ⟨h1, h2, h3, h4⟩
    | notStarted =>
      by_cases hca : s.cancelled = true
      · have hstep : tickStep modeOf s = { s with ticker := .finished } := by
          simp [tickStep, hcr, ht, hca]
        rw [hstep]
        refine ⟨fun h => ?_, fun _ => h2 hcr, fun b hb => ?_, fun h => h4 h⟩
        · have h' : s.created = false := h
          rw [hcr] at h'
          exact Bool.noConfusion h'
        · obtain ⟨-, hcan, hbo⟩ := h3 b hb
          exact ⟨rfl, hcan, hbo⟩
      · by_cases hsp : s.isSpeaking = true
        · have hstep : tickStep modeOf s =
              { s with ticker := .sleeping 0,
                       trace := s.trace ++ [.tickMode (modeOf 0)] } := by
            simp [tickStep, hcr, ht, hca, hsp]
          rw [hstep]
          refine ⟨fun h => ?_, fun _ => ?_, fun b hb => ?_, fun h => h4 h⟩
          · have h' : s.created = false := h
            rw [hcr] at h'
            exact Bool.noConfusion h'
          · obtain ⟨r, hr⟩ := h2 hcr
            refine ⟨r ++ [.tickMode (modeOf 0)], ?_⟩
            show s.trace ++ [.tickMode (modeOf 0)] =
              .stateSpeaking :: .synthEnter :: (r ++ [.tickMode (modeOf 0)])
            rw [hr]
            simp
          · obtain ⟨htf, -, -⟩ := h3 b hb
            rw [ht] at htf
            exact absurd htf (by simp)
        · have hstep : tickStep modeOf s = { s with ticker := .finished } := by
            simp [tickStep, hcr, ht, hca, hsp]
          rw [hstep]
          refine ⟨fun h => ?_, fun _ => h2 hcr, fun b hb => ?_, fun h => h4 h⟩
          · have h' : s.created = false := h
            rw [hcr] at h'
            exact Bool.noConfusion h'
          · obtain ⟨-, hcan, hbo⟩ := h3 b hb
            exact ⟨rfl, hcan, hbo⟩
    | sleeping n =>
      by_cases hca : s.cancelled = true
      · have hstep : tickStep modeOf s = { s with ticker := .finished } := by
          simp [tickStep, hcr, ht, hca]
        rw [hstep]
        refine ⟨fun h => ?_, fun _ => h2 hcr, fun b hb => ?_, fun h => h4 h⟩
        · have h' : s.created = false := h
          rw [hcr] at h'
          exact Bool.noConfusion h'
        · obtain ⟨-, hcan, hbo⟩ := h3 b hb
          exact ⟨rfl, hcan, hbo⟩
      · by_cases hsp : s.isSpeaking = true
        · have hstep : tickStep modeOf s =
              { s with ticker := .sleeping (n + 1),
                       trace := s.trace ++ [.tickMode (modeOf (n + 1))] } := by
            simp [tickStep, hcr, ht, hca, hsp]
          rw [hstep]
          refine ⟨fun h => ?_, fun _ => ?_, fun b hb => ?_, fun h => h4 h⟩
          · have h' : s.created = false := h
            rw [hcr] at h'
            exact Bool.noConfusion h'
          · obtain ⟨r, hr⟩ := h2 hcr
            refine ⟨r ++ [.tickMode (modeOf (n + 1))], ?_⟩
            show s.trace ++ [.tickMode (modeOf (n + 1))] =
              .stateSpeaking :: .synthEnter :: (r ++ [.tickMode (modeOf (n + 1))])
            rw [hr]
            simp
          · obtain ⟨htf, -, -⟩ := h3 b hb
            rw [ht] at htf
            exact absurd htf (by simp)
        · have hstep : tickStep modeOf s = { s with ticker := .finished } := by
            simp [tickStep, hcr, ht, hca, hsp]
          rw [hstep]
          refine ⟨fun h => ?_, fun _ => h2 hcr, fun b hb => ?_, fun h => h4 h⟩
          · have h' : s.created = false := h
            rw [hcr] at h'
            exact Bool.noConfusion h'
          · obtain ⟨-, hcan, hbo⟩ := h3 b hb
            exact ⟨rfl, hcan, hbo⟩
  · have hc : s.created = false := by
      cases hcf : s.created with
      | false => rfl
      | true => exact absurd hcf hcr
    have hstep : tickStep modeOf s = s := by
      simp [tickStep, hc]
    rw [hstep]
    exact ⟨h1, h2, h3, h4⟩

/-- The speaking-phase invariant holds after any schedule. -/
theorem spInv_run (steps : Nat) (ok : Bool) (modeOf : Nat → Nat) :
    ∀ (cs : List Bool) (s : SpeakSys), SpInv ok s →
      SpInv ok (spRun steps ok modeOf cs s) := by
  intro cs
  induction cs with
  | nil => intro s h; exact h
  | cons c cs ih =>
    intro s h
    rw [spRun]
    cases c with
    | false => exact ih _ (spInv_tickStep modeOf h)
    | true => exact ih _ (spInv_mainStep steps h)

/-- C8: under every cooperative schedule of the speaking phase, (a) if
`speak` has returned (MAIN `finished`), then the ticker task was
cancelled and has been awaited to completion — no orphaned ticker
survives — and the outcome `speak` propagates is exactly the
synthesis outcome, so the swallowed cancellation signal never reaches
`speak`'s caller; and (b) every ticker emission occurs strictly after
synthesis has begun (the ticker is started only after `tts.speak` is
entered). -/
theorem speak_ticker_lifecycle (synthSteps : Nat) (synthOk : Bool)
    (modeOf : Nat → Nat) (sched : List Bool) :
    (∀ b, (spRun synthSteps synthOk modeOf sched spInit).main = .finished b →
        (spRun synthSteps synthOk modeOf sched spInit).ticker = .finished ∧
        (spRun synthSteps synthOk modeOf sched spInit).cancelled = true ∧
        b = synthOk) ∧
    (∀ i m, (spRun synthSteps synthOk modeOf sched spInit).trace.get? i =
        some (.tickMode m) →
      ∃ j, j < i ∧
        (spRun synthSteps synthOk modeOf sched spInit).trace.get? j =
          some .synthEnter) := by
  obtain ⟨h1, h2, h3, h4⟩ :=
    spInv_run synthSteps synthOk modeOf sched spInit (spInv_init synthOk)
  refine ⟨h3, ?_⟩
  intro i m hi
  cases hc : (spRun synthSteps synthOk modeOf sched spInit).created with
  | false =>
    rw [(h1 hc).1] at hi
    simp at hi
  | true =>
    obtain ⟨r, hr⟩ := h2 hc
    rw [hr] at hi
    match i with
    | 0 => simp at hi
    | 1 => simp at hi
    | j + 2 =>
      refine ⟨1, by omega, ?_⟩
      rw [hr]
      rfl

/-- Witness for C8 on a concrete schedule that starts the ticker,
finishes synthesis, joins the ticker and returns. -/
theorem speak_ticker_lifecycle_witness :
    ((spRun 1 true (fun _ => 0) [true, false, true, true, false, true]
        spInit).ticker = .finished ∧
     (spRun 1 true (fun _ => 0) [true, false, true, true, false, true]
        spInit).cancelled = true ∧
     true = true) ∧
    ∃ j, j < 2 ∧
      (spRun 1 true (fun _ => 0) [true, false, true, true, false, true]
        spInit).trace.get? j = some .synthEnter :=
  ⟨(speak_ticker_lifecycle 1 true (fun _ => 0)
      [true, false, true, true, false, true]).1 true rfl,
   (speak_ticker_lifecycle 1 true (fun _ => 0)
      [true, false, true, true, false, true]).2 2 0 rfl⟩

end SkyNet
